import Mathlib

/-!
Verification of the ingestion / clustering / ranking pipeline of a
channel-parsing service.  The definitions below are a shallow embedding of
the Python sources:

* `src/worker/parsing.py`  — ingestion poller (`poll_accounts`,
  `_fetch_channel_messages`, `_store_message`);
* `src/worker/topics.py`   — topic clusterer and ranking engine
  (`_similarity`, `cluster_topics`, `_popularity`, `compute_ranking`,
  `schedule_jobs`);
* `src/web/crypto.py`      — credential vault (`encrypt_string_session`,
  `decrypt_string_session`);
* `src/web/models/__init__.py` — the relevant table rows (`Message` with
  its `(channel_id, msg_id)` uniqueness constraint, `Topic`,
  `TopicMessage`, `TGAccount`).

External collaborators (the remote messaging source, the AES-GCM AEAD
primitive) are modelled abstractly; the base64 codec used by the vault is
modelled concretely.  Timestamps are rationals (seconds), engagement
counters are optional naturals, floats are modelled as rationals.
-/

namespace TP

/-- A message as delivered by the remote messaging source: exactly the
fields of a fetched message that the poller reads in `_store_message`
(`id`, `date`, `text`, `sender_id`, `views`, `forwards`, `replies`,
`media`). -/
structure TLMsg where
  id : Nat
  date : ℚ
  text : Option String
  senderId : Option Int
  views : Option Nat
  forwards : Option Nat
  replies : Option Nat
  media : Bool
deriving DecidableEq

/-- A row of the `messages` table (model of `web.models.Message`); `rowId`
models the autoincrement primary key `id`. -/
structure MessageRow where
  rowId : Nat
  channelId : Nat
  msgId : Nat
  date : ℚ
  text : Option String
  author : Option String
  views : Option Nat
  reactions : Option Nat
  forwards : Option Nat
  comments : Option Nat
  type : String
  hashtags : List String
  links : List String
  mediaPresent : Bool
deriving DecidableEq

/-- Errors surfaced by the persistence layer. -/
inductive DBError
  | uniqueViolation
deriving DecidableEq

/-- The `Message(...)` constructor call inside `_store_message`
(src/worker/parsing.py lines 108-124): field-by-field normalisation of a
fetched message.  `rid` models the autoincrement key assigned at flush. -/
def storeMessageRow (rid : Nat) (channelId : Nat) (msg : TLMsg) : MessageRow :=
  { rowId := rid
    channelId := channelId
    msgId := msg.id
    date := msg.date
    text := msg.text
    author := msg.senderId.map toString
    views := msg.views
    reactions := none
    forwards := msg.forwards
    comments := msg.replies
    type := if msg.media then "media" else "text"
    hashtags := []
    links := []
    mediaPresent := msg.media }

/-- `session.add` + `session.flush()` against the `messages` table, which
carries `UniqueConstraint("channel_id", "msg_id")`: inserting a row whose
`(channel_id, msg_id)` pair already exists raises an integrity error. -/
def insertMessage (store : List MessageRow) (row : MessageRow) :
    Except DBError (List MessageRow) :=
  if store.any (fun r => r.channelId == row.channelId && r.msgId == row.msgId) then
    Except.error DBError.uniqueViolation
  else
    Except.ok (store ++ [row])

/-- `_store_message` as it acts on the `messages` table: it builds the row
and inserts it, with no handler around the flush, so a uniqueness conflict
propagates as an error. -/
def store_message (store : List MessageRow) (channelId : Nat) (msg : TLMsg) :
    Except DBError (List MessageRow) :=
  insertMessage store (storeMessageRow store.length channelId msg)

/-- `_popularity` (src/worker/topics.py): sum of the four engagement
counters, an absent counter counting as 0. -/
def popularity (m : MessageRow) : Nat :=
  m.views.getD 0 + m.reactions.getD 0 + m.forwards.getD 0 + m.comments.getD 0

/-! ### The fetch/retry loop of `_fetch_channel_messages`

One call of the `try` body of the `while True` loop either finishes the
`async for` iteration normally (`ok msgs`) or yields a prefix of messages
and then raises the rate-limit condition with suggested wait `wait`
(`limited msgs wait`).  A run of the loop is driven by the list of such
outcomes; an empty remaining list means the loop is still running (it has
no other exit). -/

inductive FetchOutcome
  | ok (msgs : List TLMsg)
  | limited (msgs : List TLMsg) (wait : Nat)
deriving DecidableEq

/-- Observable effects of one `_fetch_channel_messages` run: the messages
passed to `_store_message` in order, the sleep durations, the `min_id`
argument of each `iter_messages` call, and the committed cursor (`none`
while the loop has not yet completed). -/
structure FetchResult where
  stored : List TLMsg
  sleeps : List Nat
  calls : List Nat
  cursor : Option Nat
deriving DecidableEq

/-- The local `last_id` after storing `msgs`, starting from `d`. -/
def lastIdD (msgs : List TLMsg) (d : Nat) : Nat :=
  (msgs.map TLMsg.id).getLastD d

/-- `_fetch_channel_messages` (src/worker/parsing.py lines 82-100):
`last_id` starts at the stored cursor, `attempt` at 0; each rate-limit
signal sleeps `wait * 2 ^ attempt`, increments `attempt` and retries the
fetch with the current `last_id`; a completed iteration commits `last_id`
as the new cursor and breaks. -/
def fetch_channel_messages :
    List FetchOutcome → Nat → Nat → FetchResult
  | [], _, _ => ⟨[], [], [], none⟩
  | FetchOutcome.ok msgs :: _, lastId, _ =>
      ⟨msgs, [], [lastId], some (lastIdD msgs lastId)⟩
  | FetchOutcome.limited msgs w :: rest, lastId, attempt =>
      let r := fetch_channel_messages rest (lastIdD msgs lastId) (attempt + 1)
      ⟨msgs ++ r.stored, w * 2 ^ attempt :: r.sleeps, lastId :: r.calls, r.cursor⟩

/-- A concrete fetched message used in concrete evaluations. -/
def msgA : TLMsg :=
  ⟨5, 100, some "hello", some 7, some 3, some 1, some 2, false⟩

/-- A second concrete fetched message. -/
def msgB : TLMsg :=
  ⟨9, 200, some "world", none, none, some 4, none, true⟩

/-- Source ids of a list of fetched messages. -/
def ids (l : List TLMsg) : List Nat := l.map TLMsg.id

/-- The remote source delivers messages in strictly ascending id order
(`iter_messages` with `reverse=True`). -/
def SortedUp (upstream : List TLMsg) : Prop := (ids upstream).Pairwise (· < ·)

/-- The messages of `upstream` with source id strictly above the cursor:
what `iter_messages(channel, min_id=c, reverse=True)` yields. -/
def newer (c : Nat) (upstream : List TLMsg) : List TLMsg :=
  upstream.filter (fun m => decide (c < m.id))

/-- A fetch script is consistent with the upstream message set when every
attempt delivers messages of `upstream` above the current cursor: a
completed attempt delivers all of them, an interrupted attempt delivers a
prefix of them (the rate limit strikes mid-iteration), after which the
local cursor is the id of the last delivered message. -/
def Consistent (upstream : List TLMsg) : List FetchOutcome → Nat → Prop
  | [], _ => True
  | FetchOutcome.ok msgs :: _, c => msgs = newer c upstream
  | FetchOutcome.limited msgs _ :: rest, c =>
      (msgs <+: newer c upstream) ∧ Consistent upstream rest (lastIdD msgs c)

/-- The suggested waits of the consecutive rate-limit signals of a run
(the limited outcomes before the first completed attempt). -/
def limitedWaits : List FetchOutcome → List Nat
  | FetchOutcome.limited _ w :: rest => w :: limitedWaits rest
  | _ => []

/-- The exponential-backoff sleep sequence: the i-th wait (0-based, with
`k` signals already seen) is slept for `w * 2 ^ (k + i)` seconds. -/
def backoffSleeps (k : Nat) : List Nat → List Nat
  | [] => []
  | w :: ws => w * 2 ^ k :: backoffSleeps (k + 1) ws

/-- Durable per-channel state: the committed `messages` rows (as fetched
messages) and the committed cursor `AccountChannelState.last_msg_id`
(`0` models NULL, as in `state.last_msg_id or 0`). -/
structure ChanState where
  committed : List TLMsg
  cursor : Nat
deriving DecidableEq

/-- Highest source id among a list of messages (0 when empty). -/
def maxId (l : List TLMsg) : Nat := (ids l).foldr max 0

/-- Commit the observable effects of a fetch-loop run to durable state:
if the loop completed, the stored messages are appended to the committed
rows and the cursor is committed; otherwise nothing further happens. -/
def commitRun (st : ChanState) (r : FetchResult) : Option ChanState :=
  match r.cursor with
  | some c' => some ⟨st.committed ++ r.stored, c'⟩
  | none => none

/-- One completed poller run over a channel: the fetch loop driven by
`script` (against upstream messages recorded in `GoodRuns`), starting at
the committed cursor with the attempt counter at 0. -/
def runChannelOnce (st : ChanState) (_upstream : List TLMsg)
    (script : List FetchOutcome) : Option ChanState :=
  commitRun st (fetch_channel_messages script st.cursor 0)

/-- A sequence of poller runs over the same channel. -/
def runChannel : ChanState → List (List TLMsg × List FetchOutcome) → Option ChanState
  | st, [] => some st
  | st, (up, sc) :: rest =>
      match runChannelOnce st up sc with
      | some st' => runChannel st' rest
      | none => none

/-- Every run of the sequence is driven by a sorted upstream and a fetch
script consistent with it (relative to the cursor the run starts from). -/
def GoodRuns : ChanState → List (List TLMsg × List FetchOutcome) → Prop
  | _, [] => True
  | st, (up, sc) :: rest =>
      SortedUp up ∧ Consistent up sc st.cursor ∧
      ∀ st', runChannelOnce st up sc = some st' → GoodRuns st' rest

/-- A concrete fetch script: the first attempt yields one message and is
then rate limited with suggested wait 4; the retry completes. -/
def cexScript : List FetchOutcome :=
  [FetchOutcome.limited [msgA] 4, FetchOutcome.ok []]

/-- Concrete upstream for the C3 witness. -/
def wUpstream : List TLMsg := [msgA, msgB]

/-- Concrete script for the C3 witness: first attempt delivers `msgA`
then is rate limited; the retry delivers the rest. -/
def wScript : List FetchOutcome :=
  [FetchOutcome.limited [msgA] 4, FetchOutcome.ok [msgB]]

/-! ### Credential vault (src/web/crypto.py)

The vault base64-encodes `nonce ++ ciphertext`.  The base64 codec (an
external standard-library collaborator) is modelled concretely below over
byte lists; the AES-GCM AEAD primitive is modelled abstractly by a
structure carrying the library's correctness contract. -/

/-- The base64 alphabet (RFC 4648), as used by `base64.b64encode`. -/
def b64alphabet : List Char :=
  "ABCDEFGHIJKLMNOPQRSTUVWXYZabcdefghijklmnopqrstuvwxyz0123456789+/".toList

/-- Character for a 6-bit group. -/
def b64char (n : Nat) : Char := b64alphabet.getD n '='

/-- 6-bit group of an alphabet character. -/
def b64val (c : Char) : Nat := b64alphabet.indexOf c

/-- 6-bit groups of a byte list (3 bytes to 4 sextets; a trailing 1- or
2-byte group yields 2 or 3 sextets, zero padded on the right). -/
def encodeSextets : List Nat → List Nat
  | a :: b :: c :: rest =>
      a / 4 :: (a % 4 * 16 + b / 16) :: (b % 16 * 4 + c / 64) :: c % 64 ::
        encodeSextets rest
  | [a, b] => [a / 4, a % 4 * 16 + b / 16, b % 16 * 4]
  | [a] => [a / 4, a % 4 * 16]
  | [] => []

/-- Reassemble bytes from 6-bit groups (inverse of `encodeSextets`). -/
def decodeSextets : List Nat → List Nat
  | a :: b :: c :: d :: rest =>
      (a * 4 + b / 16) :: (b % 16 * 16 + c / 4) :: (c % 4 * 64 + d) ::
        decodeSextets rest
  | [a, b, c] => [a * 4 + b / 16, b % 16 * 16 + c / 4]
  | [a, b] => [a * 4 + b / 16]
  | _ => []

/-- Padding characters appended by `base64.b64encode` so that the output
length is a multiple of 4. -/
def b64pad (bytes : List Nat) : List Char :=
  match bytes.length % 3 with
  | 1 => ['=', '=']
  | 2 => ['=']
  | _ => []

/-- `base64.b64encode` over a byte list, as a character list. -/
def b64encode (bytes : List Nat) : List Char :=
  (encodeSextets bytes).map b64char ++ b64pad bytes

/-- `base64.b64decode`: strip the trailing padding, map the characters
back to 6-bit groups and reassemble the bytes. -/
def b64decode (s : List Char) : List Nat :=
  decodeSextets ((s.takeWhile (fun c => c != '=')).map b64val)

/-- An authenticated-encryption primitive with a fixed key (models
`cryptography.hazmat...AESGCM(_KEY_V1)`): `enc` encrypts a plaintext
under a nonce; `dec` returns `none` when the authentication tag does not
verify.  `dec_enc` is the library's correctness contract: decrypting an
honestly produced ciphertext under its nonce returns the plaintext. -/
structure AEAD where
  enc : List Nat → List Nat → List Nat
  dec : List Nat → List Nat → Option (List Nat)
  dec_enc : ∀ nonce pt, dec nonce (enc nonce pt) = some pt

/-- The failures of `decrypt_string_session`: a `ValueError` for an
unsupported key version, an `InvalidTag` for a failed authentication. -/
inductive CryptoError
  | unsupportedKeyVersion
  | authenticationFailure
deriving DecidableEq

/-- `encrypt_string_session` (src/web/crypto.py lines 17-27): AES-GCM
encrypt the secret (as bytes) under a fresh 12-byte nonce with the
version-1 key and return the base64 of `nonce ++ ciphertext` together
with key version 1. -/
def encrypt_string_session (A : AEAD) (nonce : List Nat)
    (secret : List Nat) : List Char × Nat :=
  (b64encode (nonce ++ A.enc nonce secret), 1)

/-- `decrypt_string_session` (src/web/crypto.py lines 30-37): reject any
key version other than 1, base64-decode, split off the 12-byte nonce and
authenticate-decrypt the remainder. -/
def decrypt_string_session (A : AEAD) (cipher_b64 : List Char)
    (kver : Nat) : Except CryptoError (List Nat) :=
  if kver ≠ 1 then Except.error CryptoError.unsupportedKeyVersion
  else
    match A.dec ((b64decode cipher_b64).take 12)
        ((b64decode cipher_b64).drop 12) with
    | some pt => Except.ok pt
    | none => Except.error CryptoError.authenticationFailure

/-- A degenerate but lawful AEAD instance used for concrete witnesses. -/
def idAEAD : AEAD :=
  { enc := fun _ pt => pt
    dec := fun _ c => some c
    dec_enc := fun _ _ => rfl }

/-- A concrete 12-byte nonce. -/
def nonce0 : List Nat := List.replicate 12 0

/-- A concrete secret, the bytes of "hi". -/
def secret0 : List Nat := [104, 105]

/-- A row of `tg_accounts` as the worker reads it. -/
structure TGAccountRow where
  sessionCipher : List Char
  kver : Option Nat
  isActive : Bool

/-- The string handed to `StringSession` for an account by
`poll_accounts` (src/worker/parsing.py lines 56-62): accounts with a
falsy `session_cipher` are skipped, and otherwise the stored
`session_cipher` is used verbatim — no decryption is performed. -/
def pollSessionString (a : TGAccountRow) : Option (List Char) :=
  if a.sessionCipher = [] then none else some a.sessionCipher

/-- An account as stored by the QR-login route (src/web/routes/qr.py
lines 50-54): `session_cipher` is the output of
`encrypt_string_session`. -/
def acct0 : TGAccountRow :=
  { sessionCipher := (encrypt_string_session idAEAD nonce0 secret0).1
    kver := some 1
    isActive := true }

/-! ### Text similarity (`_similarity`, src/worker/topics.py lines 44-54)

`_similarity` delegates to `difflib.SequenceMatcher(None, a, b).ratio()`,
an external standard-library collaborator, modelled here from its
documented contract without the junk heuristics (no `isjunk` argument is
passed; `autojunk` only affects strings of 200 or more characters):
`ratio = 2*M/T` where `T` is the total length and `M` the total size of
the matching blocks found by recursively taking the longest matching
block — the `(i, j, k)` with `a[i:i+k] = b[j:j+k]`, `k` maximal, then `i`
minimal, then `j` minimal. -/

/-- Length of the longest common prefix of two character lists. -/
def cpl : List Char → List Char → Nat
  | x :: xs, y :: ys => if x = y then cpl xs ys + 1 else 0
  | _, _ => 0

/-- All candidate block starts, scanned in ascending `i` then `j`. -/
def candidates (a b : List Char) : List (Nat × Nat) :=
  (List.range a.length).flatMap
    (fun i => (List.range b.length).map (fun j => (i, j)))

/-- Keep the better of the current best block and the maximal block at a
candidate start (strict improvement only, so the scan order makes `i`,
then `j`, minimal among maximal blocks). -/
def bestStep (a b : List Char) (best : Nat × Nat × Nat) (c : Nat × Nat) :
    Nat × Nat × Nat :=
  if best.2.2 < cpl (a.drop c.1) (b.drop c.2) then
    (c.1, c.2, cpl (a.drop c.1) (b.drop c.2))
  else best

/-- `find_longest_match` over whole strings: the first maximal matching
block, `(0, 0, 0)` when nothing matches. -/
def pickBest (a b : List Char) : Nat × Nat × Nat :=
  (candidates a b).foldl (bestStep a b) (0, 0, 0)

/-- Total size of the matching blocks (`get_matching_blocks`): the
longest matching block, plus recursively the matching blocks of the parts
before and after it. -/
def matchingSize (a b : List Char) : Nat :=
  if h : (pickBest a b).2.2 = 0 then 0
  else
    matchingSize (a.take (pickBest a b).1) (b.take (pickBest a b).2.1)
      + (pickBest a b).2.2
      + matchingSize (a.drop ((pickBest a b).1 + (pickBest a b).2.2))
          (b.drop ((pickBest a b).2.1 + (pickBest a b).2.2))
termination_by a.length + b.length
decreasing_by
  all_goals
    unfold pickBest at h ⊢
    have inv : ∀ (l : List (Nat × Nat)) (init : Nat × Nat × Nat),
        (∀ c ∈ l, c.1 < a.length ∧ c.2 < b.length) →
        (init = (0, 0, 0) ∨ (init.1 < a.length ∧ init.2.1 < b.length)) →
        (l.foldl (bestStep a b) init = (0, 0, 0) ∨
          ((l.foldl (bestStep a b) init).1 < a.length ∧
            (l.foldl (bestStep a b) init).2.1 < b.length)) := by
      intro l
      induction l with
      | nil => intro init _ h0; exact h0
      | cons c t ih =>
        intro init hmem h0
        rw [List.foldl_cons]
        refine ih (bestStep a b init c)
          (fun x hx => hmem x (List.mem_cons_of_mem c hx)) ?_
        unfold bestStep
        split
        · exact Or.inr (hmem c (List.mem_cons_self c t))
        · exact h0
    have hbound := inv (candidates a b) (0, 0, 0)
      (fun c hc => by
        obtain ⟨i, hi, hmem⟩ := List.mem_flatMap.mp hc
        obtain ⟨j, hj, rfl⟩ := List.mem_map.mp hmem
        exact ⟨List.mem_range.mp hi, List.mem_range.mp hj⟩)
      (Or.inl rfl)
    rcases hbound with h0 | ⟨h1, h2⟩
    · exact absurd (by rw [h0]) h
    · first
      | (simp only [List.length_take]; omega)
      | (simp only [List.length_drop]; omega)

/-- `SequenceMatcher.ratio()`: `2*M / T` as a rational. -/
def ratio (a b : List Char) : ℚ :=
  2 * (matchingSize a b : ℚ) / ((a.length : ℚ) + (b.length : ℚ))

/-- `_similarity` (src/worker/topics.py lines 44-54): falls back to 0
when either text is missing (`None`) or empty, else the SequenceMatcher
ratio. -/
def similarity (a b : Option String) : ℚ :=
  match a, b with
  | some sa, some sb =>
      if sa = "" ∨ sb = "" then 0 else ratio sa.toList sb.toList
  | _, _ => 0

/-! ### Topic clustering (`cluster_topics`, src/worker/topics.py 57-95) -/

/-- A greedy cluster: the representative (first member) and the later
members, in arrival order — clusters are created as singletons and only
ever appended to, so they are never empty. -/
structure Cluster where
  rep : MessageRow
  members : List MessageRow
deriving DecidableEq

/-- All messages of a cluster, representative first. -/
def clusterList (cl : Cluster) : List MessageRow := cl.rep :: cl.members

/-- The inner `for cluster in clusters` loop of `cluster_topics`: append
the message to the first cluster whose similarity with the
representative's text meets the threshold, else start a new singleton
cluster at the end. -/
def insertGreedy (θ : ℚ) (msg : MessageRow) : List Cluster → List Cluster
  | [] => [⟨msg, []⟩]
  | cl :: rest =>
      if θ ≤ similarity msg.text cl.rep.text then
        ⟨cl.rep, cl.members ++ [msg]⟩ :: rest
      else cl :: insertGreedy θ msg rest

/-- The outer `for msg in messages` loop: single greedy pass in input
order. -/
def buildClusters (θ : ℚ) (msgs : List MessageRow) : List Cluster :=
  msgs.foldl (fun cs m => insertGreedy θ m cs) []

/-- A row of the `topic_messages` join table. -/
structure TopicMessageRow where
  topicId : Nat
  messageId : Nat
deriving DecidableEq

/-- A row of the `topics` table. -/
structure TopicRow where
  topicId : Nat
  title : String
deriving DecidableEq

/-- The selection query of `cluster_topics`: messages dated within the
trailing 24 hours (`date >= cutoff`) that are not linked to any topic. -/
def selectUnclustered (db : List MessageRow) (links : List TopicMessageRow)
    (cutoff : ℚ) : List MessageRow :=
  db.filter (fun m => decide (cutoff ≤ m.date) &&
    !(links.any (fun tm => tm.messageId == m.rowId)))

/-- Title of the Topic materialised from a cluster: the first 255
characters of the representative's text (empty string for a missing
text). -/
def titleOf (cl : Cluster) : String := (cl.rep.text.getD "").take 255

/-- `cluster_topics` (src/worker/topics.py lines 57-95): select the
unclustered recent messages, group them greedily, then materialise every
cluster as one Topic with one TopicMessage row per member.
`nextTopicId` models the autoincrement topic key obtained at flush. -/
def cluster_topics (θ : ℚ) (db : List MessageRow)
    (links : List TopicMessageRow) (cutoff : ℚ) (nextTopicId : Nat) :
    List TopicRow × List TopicMessageRow :=
  ((buildClusters θ (selectUnclustered db links cutoff)).enum.map
      (fun p => ⟨nextTopicId + p.1, titleOf p.2⟩),
   (buildClusters θ (selectUnclustered db links cutoff)).enum.flatMap
      (fun p => (clusterList p.2).map
        (fun m => ⟨nextTopicId + p.1, m.rowId⟩)))

/-- Relation between an earlier and a later cluster of a greedy pass: the
later cluster's representative and every one of its members were rejected
by (scored strictly below threshold against) the earlier cluster's
representative. -/
def RejectEarlier (θ : ℚ) (c1 c2 : Cluster) : Prop :=
  similarity c2.rep.text c1.rep.text < θ ∧
  ∀ m ∈ c2.members, similarity m.text c1.rep.text < θ

/-- Invariant of the greedy pass: every member meets the threshold
against its own representative, and everything in a later cluster was
rejected by every earlier representative (first-fit). -/
def GreedyInv (θ : ℚ) (cs : List Cluster) : Prop :=
  (∀ cl ∈ cs, ∀ m ∈ cl.members, θ ≤ similarity m.text cl.rep.text) ∧
  cs.Pairwise (RejectEarlier θ)

/-! ### Ranking (`compute_ranking`, src/worker/topics.py 126-132) -/

/-- The trend factor `1 / (1 + age_hours)`. -/
def trend (ageHours : ℚ) : ℚ := 1 / (1 + ageHours)

/-- `age_hours = (now - msg.date).total_seconds() / 3600` (dates in
seconds). -/
def ageHours (now : ℚ) (m : MessageRow) : ℚ := (now - m.date) / 3600

/-- The per-message ranking score: `popularity * trend`. -/
def msgScore (now : ℚ) (m : MessageRow) : ℚ :=
  (popularity m : ℚ) * trend (ageHours now m)

/-- A message row with every engagement counter absent. -/
def rowZero (rid : Nat) (date : ℚ) : MessageRow :=
  { rowId := rid, channelId := 1, msgId := rid, date := date, text := none
    author := none, views := none, reactions := none, forwards := none
    comments := none, type := "text", hashtags := [], links := []
    mediaPresent := false }

/-- A message row with a views counter. -/
def rowViews (rid : Nat) (date : ℚ) (v : Nat) : MessageRow :=
  { rowZero rid date with views := some v }

/-! ### Scheduler (`schedule_jobs`, src/worker/topics.py 203-212) -/

/-- The outcome of one iteration body `func(session)` of `_periodic`. -/
inductive IterResult
  | ok
  | failed
deriving DecidableEq

/-- `_periodic` driven by a script of iteration outcomes: the loop body
has no exception handler, so the first failing iteration propagates its
exception and terminates the loop; returns the number of iterations that
completed and whether the loop is still alive after the script. -/
def periodicRun : List IterResult → Nat × Bool
  | [] => (0, true)
  | IterResult.ok :: rest => ((periodicRun rest).1 + 1, (periodicRun rest).2)
  | IterResult.failed :: _ => (0, false)

end TP

/-- Claim C10: every Message row created by the ingestion poller has its
reactions counter set to `none`, so the reactions component contributes
exactly 0 to the popularity used by the ranking engine: the popularity of
a stored row is the sum of the fetched views, forwards and replies
counters alone. -/
theorem C10_reactions_none_zero_popularity (rid cid : Nat) (msg : TP.TLMsg) :
    (TP.storeMessageRow rid cid msg).reactions = none ∧
    TP.popularity (TP.storeMessageRow rid cid msg) =
      msg.views.getD 0 + msg.forwards.getD 0 + msg.replies.getD 0 := by
  exact ⟨rfl, rfl⟩

/-- Claim C1 (code bug): persisting a fetched message whose
`(channel, source-message-id)` pair already exists in the store is NOT a
benign no-op in the code: `_store_message` has no handler around the
flush, so the uniqueness conflict surfaces as an integrity error.  The
evaluation below exhibits it on a concrete store already holding the
row. -/
theorem C1_duplicate_insert_surfaces_error :
    TP.store_message [TP.storeMessageRow 0 1 TP.msgA] 1 TP.msgA =
      Except.error TP.DBError.uniqueViolation := by
  rfl

namespace TP

theorem getLastD_append {α : Type} (l1 l2 : List α) (d : α) :
    (l1 ++ l2).getLastD d = l2.getLastD (l1.getLastD d) := by
  induction l1 generalizing d with
  | nil => rfl
  | cons a t ih => rw [List.cons_append, List.getLastD_cons, List.getLastD_cons, ih]

theorem lastIdD_append (l1 l2 : List TLMsg) (d : Nat) :
    lastIdD (l1 ++ l2) d = lastIdD l2 (lastIdD l1 d) := by
  unfold lastIdD
  rw [List.map_append, getLastD_append]

theorem le_getLastD_of_pairwise (l : List Nat) (d : Nat)
    (hp : l.Pairwise (· < ·)) : ∀ x ∈ l, x ≤ l.getLastD d := by
  induction l generalizing d with
  | nil => intro x hx; cases hx
  | cons a t ih =>
    intro x hx
    rw [List.getLastD_cons]
    rcases List.mem_cons.mp hx with rfl | hx
    · rcases List.mem_cons.mp (List.getLastD_mem_cons t x) with heq | hmem
      · rw [heq]
      · exact Nat.le_of_lt ((List.pairwise_cons.mp hp).1 _ hmem)
    · exact ih a (List.pairwise_cons.mp hp).2 x hx

theorem foldr_max_le (l : List Nat) (b : Nat) (h : ∀ x ∈ l, x ≤ b) :
    l.foldr max 0 ≤ b := by
  induction l with
  | nil => exact Nat.zero_le b
  | cons a t ih =>
    simp only [List.foldr_cons]
    exact max_le (h a (List.mem_cons_self a t))
      (ih fun x hx => h x (List.mem_cons_of_mem a hx))

theorem le_foldr_max (l : List Nat) (x : Nat) (hx : x ∈ l) :
    x ≤ l.foldr max 0 := by
  induction l with
  | nil => cases hx
  | cons a t ih =>
    simp only [List.foldr_cons]
    rcases List.mem_cons.mp hx with rfl | h
    · exact le_max_left _ _
    · exact le_trans (ih h) (le_max_right _ _)

theorem foldr_max_init (l : List Nat) (b : Nat) :
    l.foldr max b = max (l.foldr max 0) b := by
  induction l generalizing b with
  | nil => simp
  | cons a t ih =>
    simp only [List.foldr_cons]
    rw [ih, max_assoc]

theorem maxId_append (l1 l2 : List TLMsg) :
    maxId (l1 ++ l2) = max (maxId l1) (maxId l2) := by
  unfold maxId ids
  rw [List.map_append, List.foldr_append, foldr_max_init]

theorem sortedUp_newer (c : Nat) (up : List TLMsg) (hs : SortedUp up) :
    SortedUp (newer c up) := by
  have h1 : List.Sublist (newer c up) up := List.filter_sublist up
  show (ids (newer c up)).Pairwise (· < ·)
  exact List.Pairwise.sublist (h1.map TLMsg.id) hs

theorem mem_newer {c : Nat} {up : List TLMsg} {m : TLMsg} :
    m ∈ newer c up ↔ m ∈ up ∧ c < m.id := by
  unfold newer
  rw [List.mem_filter]
  simp

theorem filter_eq_drop (F : List TLMsg) (n : Nat) (l : Nat)
    (h1 : ∀ x ∈ F.take n, x.id ≤ l) (h2 : ∀ x ∈ F.drop n, l < x.id) :
    F.filter (fun m => decide (l < m.id)) = F.drop n := by
  have e1 : (F.take n).filter (fun m => decide (l < m.id)) = [] :=
    List.filter_eq_nil_iff.mpr fun a ha => by
      simp only [decide_eq_true_eq]
      exact Nat.not_lt.mpr (h1 a ha)
  have e2 : (F.drop n).filter (fun m => decide (l < m.id)) = F.drop n :=
    List.filter_eq_self.mpr fun a ha => by
      simp only [decide_eq_true_eq]
      exact h2 a ha
  calc F.filter (fun m => decide (l < m.id))
      = (F.take n ++ F.drop n).filter (fun m => decide (l < m.id)) := by
        rw [List.take_append_drop]
    _ = [] ++ F.drop n := by rw [List.filter_append, e1, e2]
    _ = F.drop n := List.nil_append _

theorem newer_after_prefix (up : List TLMsg) (c : Nat) (msgs : List TLMsg)
    (hs : SortedUp up) (hp : msgs <+: newer c up) :
    newer (lastIdD msgs c) up = (newer c up).drop msgs.length := by
  cases msgs with
  | nil => exact (List.drop_zero (newer c up)).symm
  | cons m0 t =>
    have hpF : (ids (newer c up)).Pairwise (· < ·) := sortedUp_newer c up hs
    obtain ⟨tl, htl⟩ := id hp
    have htake : m0 :: t = (newer c up).take (m0 :: t).length := by
      rw [← htl, List.take_left]
    have hpm : (ids (m0 :: t)).Pairwise (· < ·) :=
      List.Pairwise.sublist ((hp.sublist).map TLMsg.id) hpF
    have hlmem : lastIdD (m0 :: t) c ∈ ids (m0 :: t) := by
      show (m0.id :: ids t).getLastD c ∈ m0.id :: ids t
      rw [List.getLastD_cons]
      exact List.getLastD_mem_cons _ _
    have hcl : c < lastIdD (m0 :: t) c := by
      obtain ⟨m, hm, hmid⟩ := List.mem_map.mp hlmem
      have hmF : m ∈ newer c up := (hp.sublist).subset hm
      rw [← hmid]
      exact (mem_newer.mp hmF).2
    have h1 : ∀ x ∈ (newer c up).take (m0 :: t).length,
        x.id ≤ lastIdD (m0 :: t) c := by
      rw [← htake]
      intro x hx
      exact le_getLastD_of_pairwise _ c hpm _ (List.mem_map_of_mem TLMsg.id hx)
    have h2 : ∀ x ∈ (newer c up).drop (m0 :: t).length,
        lastIdD (m0 :: t) c < x.id := by
      intro x hx
      have hsplit : ids (newer c up) =
          ids ((newer c up).take (m0 :: t).length) ++
            ids ((newer c up).drop (m0 :: t).length) := by
        unfold ids
        rw [← List.map_append, List.take_append_drop]
      have hcross := (List.pairwise_append.mp (hsplit ▸ hpF)).2.2
      refine hcross _ ?_ x.id (List.mem_map_of_mem TLMsg.id hx)
      rw [← htake]
      exact hlmem
    have hfilter : up.filter (fun m => decide (lastIdD (m0 :: t) c < m.id)) =
        (newer c up).filter (fun m => decide (lastIdD (m0 :: t) c < m.id)) := by
      unfold newer
      rw [List.filter_filter]
      apply List.filter_congr
      intro a _
      by_cases hla : lastIdD (m0 :: t) c < a.id
      · have hca : c < a.id := lt_trans hcl hla
        simp [hla, hca]
      · simp [hla]
    show up.filter (fun m => decide (lastIdD (m0 :: t) c < m.id)) = _
    rw [hfilter, filter_eq_drop _ _ _ h1 h2]

/-- Completing runs of the fetch loop: if the loop breaks, the messages it
stored are exactly the upstream messages above the starting cursor, and
the committed cursor is the id of the last of them (the starting cursor
when there are none). -/
theorem fetch_stored_cursor (script : List FetchOutcome) (up : List TLMsg)
    (c k : Nat) (hs : SortedUp up) (hc : Consistent up script c) :
    ∀ res, (fetch_channel_messages script c k).cursor = some res →
      (fetch_channel_messages script c k).stored = newer c up ∧
      res = lastIdD (newer c up) c := by
  induction script generalizing c k with
  | nil => intro res h; cases h
  | cons o rest ih =>
    cases o with
    | ok msgs =>
      intro res h
      have hmsgs : msgs = newer c up := hc
      have hres : res = lastIdD msgs c := by
        have : some (lastIdD msgs c) = some res := h
        exact (Option.some_inj.mp this).symm
      exact ⟨hmsgs, by rw [hres, hmsgs]⟩
    | limited msgs w =>
      intro res h
      obtain ⟨hpre, hcons⟩ := hc
      have hstep := newer_after_prefix up c msgs hs hpre
      obtain ⟨tl, htl⟩ := hpre
      have hpre : msgs <+: newer c up := ⟨tl, htl⟩
      have happend : msgs ++ (newer c up).drop msgs.length = newer c up := by
        conv_rhs => rw [← htl]
        rw [← htl, List.drop_left]
      obtain ⟨hstored, hres⟩ :=
        ih (lastIdD msgs c) (k + 1) hcons res h
      constructor
      · show msgs ++ (fetch_channel_messages rest (lastIdD msgs c) (k + 1)).stored
            = newer c up
        rw [hstored, hstep]
        exact happend
      · rw [hres, hstep]
        have happ := lastIdD_append msgs ((newer c up).drop msgs.length) c
        rw [happend] at happ
        exact happ.symm

/-- The sleep sequence of a fetch run is the exponential backoff sequence
over the consecutive suggested waits. -/
theorem fetch_sleeps (script : List FetchOutcome) (c k : Nat) :
    (fetch_channel_messages script c k).sleeps =
      backoffSleeps k (limitedWaits script) := by
  induction script generalizing c k with
  | nil => rfl
  | cons o rest ih =>
    cases o with
    | ok msgs => rfl
    | limited msgs w =>
      show w * 2 ^ k :: (fetch_channel_messages rest (lastIdD msgs c) (k + 1)).sleeps
          = backoffSleeps k (w :: limitedWaits rest)
      rw [ih, backoffSleeps]

theorem backoffSleeps_getD (ws : List Nat) (k n : Nat) (h : n < ws.length) :
    (backoffSleeps k ws).getD n 0 = ws.getD n 0 * 2 ^ (k + n) := by
  induction ws generalizing k n with
  | nil => cases h
  | cons w t ih =>
    cases n with
    | zero => rfl
    | succ m =>
      show (backoffSleeps (k + 1) t).getD m 0 = t.getD m 0 * 2 ^ (k + (m + 1))
      rw [ih (k + 1) m (by simpa using h)]
      ring_nf

theorem runOnce_spec (st st' : ChanState) (up : List TLMsg)
    (sc : List FetchOutcome) (hs : SortedUp up)
    (hc : Consistent up sc st.cursor)
    (h : runChannelOnce st up sc = some st') :
    st'.committed = st.committed ++ newer st.cursor up ∧
    st'.cursor = lastIdD (newer st.cursor up) st.cursor := by
  unfold runChannelOnce commitRun at h
  split at h
  · next c' heq =>
    obtain ⟨hst, hres⟩ := fetch_stored_cursor sc up st.cursor 0 hs hc c' heq
    cases h
    exact ⟨by rw [hst], by rw [hres]⟩
  · cases h

theorem maxId_inv_step (st st' : ChanState) (up : List TLMsg)
    (sc : List FetchOutcome) (hs : SortedUp up)
    (hc : Consistent up sc st.cursor)
    (hInv : st.cursor = maxId st.committed)
    (h : runChannelOnce st up sc = some st') :
    st'.cursor = maxId st'.committed ∧ st.cursor ≤ st'.cursor ∧
    st.committed <+: st'.committed := by
  obtain ⟨hcomm, hcur⟩ := runOnce_spec st st' up sc hs hc h
  refine ⟨?_, ?_, ⟨newer st.cursor up, hcomm.symm⟩⟩
  · rw [hcomm, hcur, maxId_append, ← hInv]
    cases hF : newer st.cursor up with
    | nil => simp [maxId, ids, lastIdD]
    | cons f0 ft =>
      have hpF : (ids (newer st.cursor up)).Pairwise (· < ·) :=
        sortedUp_newer st.cursor up hs
      rw [hF] at hpF
      have hlmem : lastIdD (f0 :: ft) st.cursor ∈ ids (f0 :: ft) := by
        show (f0.id :: ids ft).getLastD st.cursor ∈ f0.id :: ids ft
        rw [List.getLastD_cons]
        exact List.getLastD_mem_cons _ _
      have hcl : st.cursor < lastIdD (f0 :: ft) st.cursor := by
        obtain ⟨m, hm, hmid⟩ := List.mem_map.mp hlmem
        have hmF : m ∈ newer st.cursor up := by rw [hF]; exact hm
        rw [← hmid]
        exact (mem_newer.mp hmF).2
      have hmax : maxId (f0 :: ft) = lastIdD (f0 :: ft) st.cursor := by
        apply Nat.le_antisymm
        · exact foldr_max_le _ _ fun x hx =>
            le_getLastD_of_pairwise _ st.cursor hpF x hx
        · exact le_foldr_max _ _ hlmem
      rw [hmax]
      exact (max_eq_right (Nat.le_of_lt hcl)).symm
  · rw [hcur]
    rcases List.mem_cons.mp
        (List.getLastD_mem_cons (ids (newer st.cursor up)) st.cursor) with heq | hmem
    · show st.cursor ≤ (ids (newer st.cursor up)).getLastD st.cursor
      exact Nat.le_of_eq heq.symm
    · obtain ⟨m, hm, hmid⟩ := List.mem_map.mp hmem
      show st.cursor ≤ (ids (newer st.cursor up)).getLastD st.cursor
      rw [← hmid]
      exact Nat.le_of_lt (mem_newer.mp hm).2

end TP

/-- Claim C2: after any sequence of completed poller runs over a channel
(each run driven by a sorted upstream and a fetch script consistent with
it), the committed cursor equals the highest source id among the messages
committed for the channel, the cursor is monotonically non-decreasing
across the sequence, and the previously committed messages are preserved
(the cursor is never committed ahead of the durably persisted messages,
being exactly the maximum of their ids). -/
theorem C2_cursor_highest_committed
    (runsList : List (List TP.TLMsg × List TP.FetchOutcome))
    (st st' : TP.ChanState)
    (hInv : st.cursor = TP.maxId st.committed)
    (hg : TP.GoodRuns st runsList)
    (hr : TP.runChannel st runsList = some st') :
    st'.cursor = TP.maxId st'.committed ∧ st.cursor ≤ st'.cursor ∧
    st.committed <+: st'.committed := by
  induction runsList generalizing st with
  | nil =>
    cases hr
    exact ⟨hInv, Nat.le_refl _, List.prefix_refl _⟩
  | cons p rest ih =>
    obtain ⟨up, sc⟩ := p
    obtain ⟨hs, hc, hnext⟩ := hg
    unfold TP.runChannel at hr
    cases hone : TP.runChannelOnce st up sc with
    | none => rw [hone] at hr; cases hr
    | some st1 =>
      rw [hone] at hr
      obtain ⟨h1, h2, h3⟩ := TP.maxId_inv_step st st1 up sc hs hc hInv hone
      obtain ⟨k1, k2, k3⟩ := ih st1 h1 (hnext st1 hone) hr
      exact ⟨k1, Nat.le_trans h2 k2, h3.trans k3⟩

/-- Witness for C2: a concrete two-attempt run (one rate limit, then
completion) over upstream messages with ids 5 and 9, starting from the
empty store and cursor 0, ends with cursor 9 = highest committed id. -/
theorem C2_cursor_highest_committed_witness :
    (9 : Nat) = TP.maxId [TP.msgA, TP.msgB] ∧ (0 : Nat) ≤ (9 : Nat) ∧
    ([] : List TP.TLMsg) <+: [TP.msgA, TP.msgB] :=
  C2_cursor_highest_committed [(TP.wUpstream, TP.wScript)]
    ⟨[], 0⟩ ⟨[TP.msgA, TP.msgB], 9⟩ rfl
    ⟨by show (TP.ids TP.wUpstream).Pairwise (· < ·); decide,
      ⟨⟨[TP.msgB], rfl⟩, rfl⟩, fun _ _ => trivial⟩ rfl

/-- Claim C3 counterexample: in a run whose first attempt stores the
message with id 5 and is then rate limited, the retry does NOT reuse the
original cursor 0: the second `iter_messages` call uses `min_id = 5`, the
id of the last message already persisted. -/
theorem C3_retry_not_from_same_cursor :
    (TP.fetch_channel_messages TP.cexScript 0 0).calls = [0, 5] ∧
    (TP.fetch_channel_messages TP.cexScript 0 0).calls ≠ [0, 0] := by
  exact ⟨rfl, by decide⟩

/-- Claim C3 (amended): the n-th consecutive rate-limit signal (n ≥ 1,
0-based index n-1) carrying suggested wait w makes the poller sleep
exactly w * 2^(n-1) seconds, with no maximum attempt count; the retry
resumes from the id of the last message persisted so far (not necessarily
the original cursor), so that no message is skipped: when an attempt
finally completes, the messages stored are exactly all upstream messages
newer than the original cursor. -/
theorem C3_backoff_and_no_skip (script : List TP.FetchOutcome)
    (upstream : List TP.TLMsg) (c : Nat)
    (hs : TP.SortedUp upstream) (hc : TP.Consistent upstream script c) :
    (TP.fetch_channel_messages script c 0).sleeps =
      TP.backoffSleeps 0 (TP.limitedWaits script) ∧
    (∀ n, n < (TP.limitedWaits script).length →
      (TP.fetch_channel_messages script c 0).sleeps.getD n 0 =
        (TP.limitedWaits script).getD n 0 * 2 ^ n) ∧
    (∀ res, (TP.fetch_channel_messages script c 0).cursor = some res →
      (TP.fetch_channel_messages script c 0).stored = TP.newer c upstream) := by
  refine ⟨TP.fetch_sleeps script c 0, ?_, ?_⟩
  · intro n hn
    rw [TP.fetch_sleeps script c 0, TP.backoffSleeps_getD _ 0 n hn, Nat.zero_add]
  · intro res h
    exact (TP.fetch_stored_cursor script upstream c 0 hs hc res h).1

/-- Witness for C3: the concrete two-attempt script against upstream ids
[5, 9] satisfies the hypotheses; its single sleep is 4 * 2^0. -/
theorem C3_backoff_and_no_skip_witness :
    (TP.fetch_channel_messages TP.wScript 0 0).sleeps =
      TP.backoffSleeps 0 (TP.limitedWaits TP.wScript) ∧
    (∀ n, n < (TP.limitedWaits TP.wScript).length →
      (TP.fetch_channel_messages TP.wScript 0 0).sleeps.getD n 0 =
        (TP.limitedWaits TP.wScript).getD n 0 * 2 ^ n) ∧
    (∀ res, (TP.fetch_channel_messages TP.wScript 0 0).cursor = some res →
      (TP.fetch_channel_messages TP.wScript 0 0).stored = TP.newer 0 TP.wUpstream) :=
  C3_backoff_and_no_skip TP.wScript TP.wUpstream 0
    (by show (TP.ids TP.wUpstream).Pairwise (· < ·); decide)
    ⟨⟨[TP.msgB], rfl⟩, rfl⟩

namespace TP

theorem b64val_b64char : ∀ n : Fin 64, b64val (b64char n.val) = n.val := by
  decide

theorem b64char_ne_eq : ∀ n : Fin 64, (b64char n.val != '=') = true := by
  decide

theorem encodeSextets_lt (bytes : List Nat) (hb : ∀ b ∈ bytes, b < 256) :
    ∀ s ∈ encodeSextets bytes, s < 64 := by
  induction bytes using encodeSextets.induct with
  | case1 a b c rest ih =>
    have ha : a < 256 := hb a (by simp)
    have hbb : b < 256 := hb b (by simp)
    have hcc : c < 256 := hb c (by simp)
    intro s hs
    simp only [encodeSextets, List.mem_cons] at hs
    rcases hs with rfl | rfl | rfl | rfl | hs
    · omega
    · omega
    · omega
    · omega
    · exact ih (fun x hx => hb x (by simp [hx])) s hs
  | case2 a b =>
    have ha : a < 256 := hb a (by simp)
    have hbb : b < 256 := hb b (by simp)
    intro s hs
    simp only [encodeSextets, List.mem_cons] at hs
    rcases hs with rfl | rfl | rfl | hs
    · omega
    · omega
    · omega
    · cases hs
  | case3 a =>
    have ha : a < 256 := hb a (by simp)
    intro s hs
    simp only [encodeSextets, List.mem_cons] at hs
    rcases hs with rfl | rfl | hs
    · omega
    · omega
    · cases hs
  | case4 =>
    intro s hs
    cases hs

theorem decodeSextets_encodeSextets (bytes : List Nat)
    (hb : ∀ b ∈ bytes, b < 256) :
    decodeSextets (encodeSextets bytes) = bytes := by
  induction bytes using encodeSextets.induct with
  | case1 a b c rest ih =>
    have ha : a < 256 := hb a (by simp)
    have hbb : b < 256 := hb b (by simp)
    have hcc : c < 256 := hb c (by simp)
    have ih' := ih fun x hx => hb x (by simp [hx])
    simp only [encodeSextets, decodeSextets, ih', List.cons.injEq]
    refine ⟨?_, ?_, ?_, trivial⟩ <;> omega
  | case2 a b =>
    have ha : a < 256 := hb a (by simp)
    have hbb : b < 256 := hb b (by simp)
    simp only [encodeSextets, decodeSextets, List.cons.injEq]
    refine ⟨?_, ?_, trivial⟩ <;> omega
  | case3 a =>
    have ha : a < 256 := hb a (by simp)
    simp only [encodeSextets, decodeSextets, List.cons.injEq]
    refine ⟨?_, trivial⟩
    omega
  | case4 => rfl

theorem b64pad_all_pad (bytes : List Nat) : ∀ c ∈ b64pad bytes, c = '=' := by
  unfold b64pad
  split <;> intro c hc <;> simp_all

theorem b64decode_b64encode (bytes : List Nat) (hb : ∀ b ∈ bytes, b < 256) :
    b64decode (b64encode bytes) = bytes := by
  unfold b64encode b64decode
  rw [List.takeWhile_append_of_pos (fun a ha => by
    obtain ⟨s, hs, rfl⟩ := List.mem_map.mp ha
    exact b64char_ne_eq ⟨s, encodeSextets_lt bytes hb s hs⟩)]
  have hpad : (b64pad bytes).takeWhile (fun c => c != '=') = [] := by
    cases hp : b64pad bytes with
    | nil => rfl
    | cons c t =>
      have : c = '=' := b64pad_all_pad bytes c (by rw [hp]; simp)
      subst this
      rfl
  rw [hpad, List.append_nil, List.map_map]
  rw [List.map_congr_left (fun s hs => by
    show b64val (b64char s) = s
    exact b64val_b64char ⟨s, encodeSextets_lt bytes hb s hs⟩)]
  rw [List.map_id']
  exact decodeSextets_encodeSextets bytes hb

end TP

/-- Claim C4: for every secret byte string, every lawful AEAD primitive
and every 12-byte nonce, decrypting the result of encrypting the secret
(the base64 of nonce ++ ciphertext, paired with key version 1, the only
supported version) returns the original secret unchanged. -/
theorem C4_decrypt_encrypt_roundtrip (A : TP.AEAD) (nonce secret : List Nat)
    (hlen : nonce.length = 12)
    (hn : ∀ b ∈ nonce, b < 256)
    (hc : ∀ b ∈ A.enc nonce secret, b < 256) :
    TP.decrypt_string_session A (TP.encrypt_string_session A nonce secret).1
      (TP.encrypt_string_session A nonce secret).2 = Except.ok secret := by
  have hbytes : ∀ b ∈ nonce ++ A.enc nonce secret, b < 256 := by
    intro b hb
    rcases List.mem_append.mp hb with h | h
    · exact hn b h
    · exact hc b h
  unfold TP.encrypt_string_session TP.decrypt_string_session
  rw [if_neg (by simp)]
  rw [TP.b64decode_b64encode _ hbytes]
  rw [List.take_left' hlen, List.drop_left' hlen, A.dec_enc]

/-- Witness for C4: the round trip on a concrete nonce and secret with a
concrete lawful AEAD. -/
theorem C4_decrypt_encrypt_roundtrip_witness :
    TP.decrypt_string_session TP.idAEAD
      (TP.encrypt_string_session TP.idAEAD TP.nonce0 TP.secret0).1
      (TP.encrypt_string_session TP.idAEAD TP.nonce0 TP.secret0).2 =
      Except.ok TP.secret0 :=
  C4_decrypt_encrypt_roundtrip TP.idAEAD TP.nonce0 TP.secret0 (by decide)
    (by decide) (by decide)

/-- Claim C5 (code bug): the ingestion poller does not decrypt an
account's stored credential before opening a remote session.  For a
concrete account whose `session_cipher` was written by the QR-login route
(so it decrypts correctly under the vault), `poll_accounts` hands
`StringSession` the raw base64 ciphertext verbatim, which is not the
stored secret. -/
theorem C5_session_opened_with_raw_ciphertext :
    TP.pollSessionString TP.acct0 =
      some (TP.encrypt_string_session TP.idAEAD TP.nonce0 TP.secret0).1 ∧
    TP.decrypt_string_session TP.idAEAD TP.acct0.sessionCipher 1 =
      Except.ok TP.secret0 ∧
    ((TP.encrypt_string_session TP.idAEAD TP.nonce0 TP.secret0).1).map
        Char.toNat ≠ TP.secret0 := by
  refine ⟨rfl, rfl, by decide⟩

namespace TP

theorem cpl_self : ∀ a : List Char, cpl a a = a.length
  | [] => rfl
  | x :: xs => by
      show (if x = x then cpl xs xs + 1 else 0) = (x :: xs).length
      rw [if_pos rfl, cpl_self xs, List.length_cons]

theorem cpl_le_left : ∀ a b : List Char, cpl a b ≤ a.length
  | [], _ => Nat.zero_le _
  | _ :: _, [] => Nat.zero_le _
  | x :: xs, y :: ys => by
      show (if x = y then cpl xs ys + 1 else 0) ≤ (x :: xs).length
      split
      · rw [List.length_cons]
        exact Nat.succ_le_succ (cpl_le_left xs ys)
      · exact Nat.zero_le _

theorem foldl_bestStep_stay (a b : List Char) (l : List (Nat × Nat))
    (best : Nat × Nat × Nat)
    (hmax : ∀ c : Nat × Nat, cpl (a.drop c.1) (b.drop c.2) ≤ best.2.2) :
    l.foldl (bestStep a b) best = best := by
  induction l with
  | nil => rfl
  | cons c t ih =>
    rw [List.foldl_cons]
    have hc : bestStep a b best c = best := by
      unfold bestStep
      rw [if_neg (Nat.not_lt.mpr (hmax c))]
    rw [hc, ih]

theorem candidates_cons (x y : Char) (xs ys : List Char) :
    ∃ rest, candidates (x :: xs) (y :: ys) = (0, 0) :: rest := by
  unfold candidates
  simp only [List.length_cons, List.range_succ_eq_map, List.flatMap_cons,
    List.map_cons, List.cons_append]
  exact ⟨_, rfl⟩

theorem pickBest_self : ∀ a : List Char, pickBest a a = (0, 0, a.length)
  | [] => rfl
  | x :: xs => by
      unfold pickBest
      obtain ⟨rest, hr⟩ := candidates_cons x x xs xs
      rw [hr, List.foldl_cons]
      have hstep : bestStep (x :: xs) (x :: xs) (0, 0, 0) (0, 0)
          = (0, 0, (x :: xs).length) := by
        show (if (0 : Nat) < cpl (x :: xs) (x :: xs) then
            ((0 : Nat), (0 : Nat), cpl (x :: xs) (x :: xs))
          else ((0 : Nat), (0 : Nat), (0 : Nat))) = (0, 0, (x :: xs).length)
        rw [cpl_self]
        rw [if_pos (show (0 : Nat) < (x :: xs).length by simp)]
      rw [hstep]
      exact foldl_bestStep_stay _ _ rest _ (fun c => by
        show cpl ((x :: xs).drop c.1) ((x :: xs).drop c.2) ≤ (x :: xs).length
        exact le_trans (cpl_le_left _ _) (by rw [List.length_drop]; omega))

theorem cpl_zero_of_disjoint (a b : List Char) (hd : ∀ x ∈ a, x ∉ b) :
    ∀ i j, cpl (a.drop i) (b.drop j) = 0 := by
  intro i j
  cases hA : a.drop i with
  | nil => rfl
  | cons x xs =>
    cases hB : b.drop j with
    | nil => rfl
    | cons y ys =>
      have hxa : x ∈ a :=
        List.drop_subset i a (by rw [hA]; exact List.mem_cons_self x xs)
      have hyb : y ∈ b :=
        List.drop_subset j b (by rw [hB]; exact List.mem_cons_self y ys)
      have hxy : x ≠ y := fun he => hd x hxa (he ▸ hyb)
      show (if x = y then cpl xs ys + 1 else 0) = 0
      rw [if_neg hxy]

theorem pickBest_disjoint (a b : List Char) (hd : ∀ x ∈ a, x ∉ b) :
    pickBest a b = (0, 0, 0) := by
  unfold pickBest
  exact foldl_bestStep_stay a b _ (0, 0, 0) (fun c =>
    Nat.le_of_eq (cpl_zero_of_disjoint a b hd c.1 c.2))

theorem matchingSize_zero (a b : List Char) (h : pickBest a b = (0, 0, 0)) :
    matchingSize a b = 0 := by
  rw [matchingSize, dif_pos (by rw [h])]

theorem matchingSize_self (a : List Char) : matchingSize a a = a.length := by
  cases a with
  | nil => exact matchingSize_zero [] [] (pickBest_self [])
  | cons x xs =>
    rw [matchingSize, pickBest_self]
    rw [dif_neg (by simp)]
    show matchingSize ((x :: xs).take 0) ((x :: xs).take 0) + (x :: xs).length
        + matchingSize ((x :: xs).drop (0 + (x :: xs).length))
            ((x :: xs).drop (0 + (x :: xs).length)) = (x :: xs).length
    rw [List.take_zero, Nat.zero_add, List.drop_length]
    rw [matchingSize_zero [] [] (pickBest_self [])]
    omega

theorem ratio_self (a : List Char) (ha : a ≠ []) : ratio a a = 1 := by
  unfold ratio
  rw [matchingSize_self]
  have h0 : (0 : ℚ) < (a.length : ℚ) := by
    have : 0 < a.length :=
      Nat.pos_of_ne_zero (fun h => ha (List.length_eq_zero.mp h))
    exact_mod_cast this
  rw [div_eq_one_iff_eq (by linarith)]
  ring

theorem ratio_disjoint (a b : List Char) (hd : ∀ x ∈ a, x ∉ b) :
    ratio a b = 0 := by
  unfold ratio
  rw [matchingSize_zero a b (pickBest_disjoint a b hd)]
  simp

theorem similarity_self (s : String) (hs : s ≠ "") :
    similarity (some s) (some s) = 1 := by
  show (if s = "" ∨ s = "" then (0 : ℚ) else ratio s.toList s.toList) = 1
  rw [if_neg (by simp [hs])]
  exact ratio_self s.toList (fun h => hs (String.ext h))

end TP

/-- Claim C9 counterexample: for two messages with identical empty text,
`_similarity` returns 0, not 1 — the `if not a or not b` guard fires — so
the empty-text case does not meet any positive threshold. -/
theorem C9_empty_identical_similarity_not_one :
    TP.similarity (some "") (some "") = 0 ∧
    TP.similarity (some "") (some "") ≠ 1 := by
  have h : TP.similarity (some "") (some "") = 0 := rfl
  refine ⟨h, by rw [h]; norm_num⟩

/-- Claim C9 (amended): the similarity ratio equals 1 for every pair of
identical NON-EMPTY texts — and hence meets every threshold ≤ 1 — and 0
for disjoint texts; when either text is empty or missing the function
falls back to 0 (so the empty-text case yields 0, not 1). -/
theorem C9_similarity_identical_disjoint (s t : String) (θ : ℚ)
    (hs : s ≠ "") (hθ : θ ≤ 1) :
    TP.similarity (some s) (some s) = 1 ∧
    θ ≤ TP.similarity (some s) (some s) ∧
    ((∀ x ∈ s.toList, x ∉ t.toList) → TP.similarity (some s) (some t) = 0) ∧
    TP.similarity (some "") (some "") = 0 ∧
    TP.similarity none (some s) = 0 ∧
    TP.similarity (some s) none = 0 := by
  have h1 := TP.similarity_self s hs
  refine ⟨h1, by rw [h1]; exact hθ, ?_, rfl, rfl, rfl⟩
  intro hd
  by_cases ht : t = ""
  · subst ht
    show (if s = "" ∨ "" = "" then (0 : ℚ) else TP.ratio s.toList "".toList) = 0
    rw [if_pos (Or.inr rfl)]
  · show (if s = "" ∨ t = "" then (0 : ℚ) else TP.ratio s.toList t.toList) = 0
    rw [if_neg (by simp [hs, ht])]
    exact TP.ratio_disjoint _ _ hd

/-- Witness for C9: text "ab" against itself and against the disjoint
"xyz", with the default threshold 0.3. -/
theorem C9_similarity_identical_disjoint_witness :
    TP.similarity (some "ab") (some "ab") = 1 ∧
    (3 / 10 : ℚ) ≤ TP.similarity (some "ab") (some "ab") ∧
    ((∀ x ∈ "ab".toList, x ∉ "xyz".toList) →
      TP.similarity (some "ab") (some "xyz") = 0) ∧
    TP.similarity (some "") (some "") = 0 ∧
    TP.similarity none (some "ab") = 0 ∧
    TP.similarity (some "ab") none = 0 :=
  C9_similarity_identical_disjoint "ab" "xyz" (3 / 10) (by decide)
    (by norm_num)

/-- Claim C7 counterexample: two messages in the same window with equal
popularity (0: every counter absent) but different ages (1h and 2h before
`now = 10000`) have EQUAL scores — both 0 — so the younger one's score is
not strictly greater as the claim states. -/
theorem C7_equal_zero_popularity_equal_score :
    TP.popularity (TP.rowZero 1 6400) = TP.popularity (TP.rowZero 2 2800) ∧
    TP.ageHours 10000 (TP.rowZero 1 6400) ≠
      TP.ageHours 10000 (TP.rowZero 2 2800) ∧
    TP.msgScore 10000 (TP.rowZero 1 6400) =
      TP.msgScore 10000 (TP.rowZero 2 2800) ∧
    ¬ (TP.msgScore 10000 (TP.rowZero 2 2800) <
        TP.msgScore 10000 (TP.rowZero 1 6400)) := by
  refine ⟨rfl, ?_, ?_, ?_⟩
  · show ((10000 : ℚ) - 6400) / 3600 ≠ ((10000 : ℚ) - 2800) / 3600
    norm_num
  · show ((0 : ℚ)) * TP.trend (TP.ageHours 10000 (TP.rowZero 1 6400)) =
      ((0 : ℚ)) * TP.trend (TP.ageHours 10000 (TP.rowZero 2 2800))
    ring
  · show ¬ ((0 : ℚ) * TP.trend (TP.ageHours 10000 (TP.rowZero 2 2800)) <
      (0 : ℚ) * TP.trend (TP.ageHours 10000 (TP.rowZero 1 6400)))
    simp

/-- Claim C7 (amended): for two messages in the same window with equal
POSITIVE popularity and different nonnegative ages, the younger one's
score is strictly greater, because trend = 1/(1+ageHours) is strictly
decreasing in age and bounded in (0, 1] for nonnegative ages, and
score = popularity * trend. -/
theorem C7_younger_scores_strictly_higher (now : ℚ) (m1 m2 : TP.MessageRow)
    (hpop : TP.popularity m1 = TP.popularity m2)
    (hpos : 0 < TP.popularity m1)
    (h1 : m1.date ≤ now) (hyoung : m2.date < m1.date) :
    TP.msgScore now m2 < TP.msgScore now m1 ∧
    (∀ x y : ℚ, 0 ≤ x → x < y → TP.trend y < TP.trend x) ∧
    (∀ x : ℚ, 0 ≤ x → 0 < TP.trend x ∧ TP.trend x ≤ 1) := by
  have htrend : ∀ x y : ℚ, 0 ≤ x → x < y → TP.trend y < TP.trend x := by
    intro x y hx hxy
    unfold TP.trend
    have hx1 : (0 : ℚ) < 1 + x := by linarith
    exact one_div_lt_one_div_of_lt hx1 (by linarith)
  have hbounds : ∀ x : ℚ, 0 ≤ x → 0 < TP.trend x ∧ TP.trend x ≤ 1 := by
    intro x hx
    unfold TP.trend
    constructor
    · exact one_div_pos.mpr (by linarith)
    · rw [div_le_one (by linarith)]
      linarith
  refine ⟨?_, htrend, hbounds⟩
  unfold TP.msgScore
  rw [← hpop]
  have hage1 : 0 ≤ TP.ageHours now m1 := by
    unfold TP.ageHours
    exact div_nonneg (by linarith) (by norm_num)
  have hagelt : TP.ageHours now m1 < TP.ageHours now m2 := by
    unfold TP.ageHours
    exact (div_lt_div_iff_of_pos_right (by norm_num)).mpr (by linarith)
  have hp : (0 : ℚ) < (TP.popularity m1 : ℚ) := by exact_mod_cast hpos
  exact mul_lt_mul_of_pos_left (htrend _ _ hage1 hagelt) hp

/-- Witness for C7: views 10 each, ages 1h and 10h before now = 100000. -/
theorem C7_younger_scores_strictly_higher_witness :
    TP.msgScore 100000 (TP.rowViews 2 64000 10) <
      TP.msgScore 100000 (TP.rowViews 1 96400 10) ∧
    (∀ x y : ℚ, 0 ≤ x → x < y → TP.trend y < TP.trend x) ∧
    (∀ x : ℚ, 0 ≤ x → 0 < TP.trend x ∧ TP.trend x ≤ 1) :=
  C7_younger_scores_strictly_higher 100000 (TP.rowViews 1 96400 10)
    (TP.rowViews 2 64000 10) rfl (by decide) (by norm_num [TP.rowViews, TP.rowZero])
    (by norm_num [TP.rowViews, TP.rowZero])

/-- Claim C8 (code bug): `_periodic` has no exception handler around
`func(session)`, so a failure inside one iteration terminates that job's
loop: with outcomes [ok, failed, ok], only 1 iteration completes and the
loop is dead (the exception propagates out of the coroutine, and through
`asyncio.gather` out of `schedule_jobs`); without a failure the loop
continues indefinitely. -/
theorem C8_iteration_failure_kills_loop :
    TP.periodicRun [TP.IterResult.ok, TP.IterResult.failed, TP.IterResult.ok]
      = (1, false) ∧
    TP.periodicRun [TP.IterResult.ok, TP.IterResult.ok, TP.IterResult.ok]
      = (3, true) := by
  exact ⟨rfl, rfl⟩

namespace TP

theorem rejectEarlier_insertGreedy (θ : ℚ) (msg : MessageRow) (cl : Cluster)
    (hmsg : similarity msg.text cl.rep.text < θ) :
    ∀ (cs : List Cluster), (∀ r ∈ cs, RejectEarlier θ cl r) →
      ∀ c ∈ insertGreedy θ msg cs, RejectEarlier θ cl c := by
  intro cs
  induction cs with
  | nil =>
    intro _ c hc
    rcases List.mem_singleton.mp hc with rfl
    exact ⟨hmsg, by intro m hm; cases hm⟩
  | cons c0 t ih =>
    intro hall c hc
    unfold insertGreedy at hc
    split at hc
    · rcases List.mem_cons.mp hc with rfl | hct
      · obtain ⟨hr, hm⟩ := hall c0 (List.mem_cons_self c0 t)
        refine ⟨hr, ?_⟩
        intro m hm2
        rcases List.mem_append.mp hm2 with h | h
        · exact hm m h
        · rcases List.mem_singleton.mp h with rfl
          exact hmsg
      · exact hall c (List.mem_cons_of_mem c0 hct)
    · rcases List.mem_cons.mp hc with heq | hct
      · exact heq ▸ hall c0 (List.mem_cons_self c0 t)
      · exact ih (fun r hr => hall r (List.mem_cons_of_mem c0 hr)) c hct

theorem greedyInv_insertGreedy (θ : ℚ) (msg : MessageRow) :
    ∀ cs : List Cluster, GreedyInv θ cs → GreedyInv θ (insertGreedy θ msg cs) := by
  intro cs
  induction cs with
  | nil =>
    intro _
    constructor
    · intro cl hcl m hm
      rcases List.mem_singleton.mp hcl with rfl
      cases hm
    · exact List.pairwise_singleton _ _
  | cons c0 t ih =>
    intro hInv
    obtain ⟨hmem, hpair⟩ := hInv
    rw [List.pairwise_cons] at hpair
    obtain ⟨hrej, hpt⟩ := hpair
    unfold insertGreedy
    split
    · next hsim =>
      constructor
      · intro cl hcl m hm
        rcases List.mem_cons.mp hcl with rfl | hct
        · rcases List.mem_append.mp hm with h | h
          · exact hmem c0 (List.mem_cons_self c0 t) m h
          · rcases List.mem_singleton.mp h with rfl
            exact hsim
        · exact hmem cl (List.mem_cons_of_mem c0 hct) m hm
      · rw [List.pairwise_cons]
        exact ⟨fun c' hc' => hrej c' hc', hpt⟩
    · next hsim =>
      have hlt : similarity msg.text c0.rep.text < θ := not_le.mp hsim
      have hInvT : GreedyInv θ t :=
        ⟨fun cl' hcl' => hmem cl' (List.mem_cons_of_mem c0 hcl'), hpt⟩
      constructor
      · intro cl hcl m hm
        rcases List.mem_cons.mp hcl with rfl | hct
        · exact hmem cl (List.mem_cons_self cl t) m hm
        · exact (ih hInvT).1 cl hct m hm
      · rw [List.pairwise_cons]
        exact ⟨rejectEarlier_insertGreedy θ msg c0 hlt t hrej, (ih hInvT).2⟩

theorem clusterList_insertGreedy (θ : ℚ) (msg : MessageRow) :
    ∀ cs : List Cluster,
      ((insertGreedy θ msg cs).flatMap clusterList).Perm
        (msg :: cs.flatMap clusterList) := by
  intro cs
  induction cs with
  | nil => simp [insertGreedy, clusterList]
  | cons c0 t ih =>
    unfold insertGreedy
    split
    · simp only [List.flatMap_cons, clusterList, List.cons_append,
        List.append_assoc, List.singleton_append]
      exact (List.Perm.cons c0.rep List.perm_middle).trans
        (List.Perm.swap msg c0.rep _)
    · simp only [List.flatMap_cons, clusterList, List.cons_append,
        List.append_assoc]
      have h1 : (c0.members ++ (insertGreedy θ msg t).flatMap clusterList).Perm
          (c0.members ++ (msg :: t.flatMap clusterList)) :=
        List.Perm.append_left c0.members ih
      refine (h1.cons c0.rep).trans ?_
      exact (List.Perm.cons c0.rep List.perm_middle).trans
        (List.Perm.swap msg c0.rep _)

theorem buildClusters_perm (θ : ℚ) :
    ∀ (msgs : List MessageRow) (cs : List Cluster),
      ((msgs.foldl (fun acc m => insertGreedy θ m acc) cs).flatMap
        clusterList).Perm (cs.flatMap clusterList ++ msgs) := by
  intro msgs
  induction msgs with
  | nil => intro cs; simp
  | cons m t ih =>
    intro cs
    rw [List.foldl_cons]
    refine (ih (insertGreedy θ m cs)).trans ?_
    refine (List.Perm.append_right t (clusterList_insertGreedy θ m cs)).trans ?_
    exact List.perm_middle.symm

theorem buildClusters_inv (θ : ℚ) :
    ∀ (msgs : List MessageRow) (cs : List Cluster), GreedyInv θ cs →
      GreedyInv θ (msgs.foldl (fun acc m => insertGreedy θ m acc) cs) := by
  intro msgs
  induction msgs with
  | nil => intro cs h; exact h
  | cons m t ih =>
    intro cs h
    rw [List.foldl_cons]
    exact ih _ (greedyInv_insertGreedy θ m cs h)

end TP

/-- Claim C6: clustering processes the selected input batch (messages of
the trailing 24 hours not linked to any topic) in a single greedy pass in
input order.  The resulting clusters partition the input (their member
lists joined are a permutation of the input); every non-representative
member met the threshold against its cluster's representative, and —
first-fit — everything in a later cluster (representative included) was
rejected by every earlier cluster's representative; every cluster is then
materialised as one Topic whose title is the first 255 characters of the
representative's text, with one TopicMessage row per member. -/
theorem C6_greedy_single_pass_clustering (θ : ℚ) (db : List TP.MessageRow)
    (links : List TP.TopicMessageRow) (cutoff : ℚ) (nextTopicId : Nat) :
    ((TP.buildClusters θ (TP.selectUnclustered db links cutoff)).flatMap
        TP.clusterList).Perm (TP.selectUnclustered db links cutoff) ∧
    TP.GreedyInv θ (TP.buildClusters θ (TP.selectUnclustered db links cutoff)) ∧
    (TP.cluster_topics θ db links cutoff nextTopicId).1 =
      (TP.buildClusters θ (TP.selectUnclustered db links cutoff)).enum.map
        (fun p => ⟨nextTopicId + p.1, (p.2.rep.text.getD "").take 255⟩) ∧
    (TP.cluster_topics θ db links cutoff nextTopicId).2 =
      (TP.buildClusters θ (TP.selectUnclustered db links cutoff)).enum.flatMap
        (fun p => (p.2.rep :: p.2.members).map
          (fun m => ⟨nextTopicId + p.1, m.rowId⟩)) := by
  refine ⟨?_, ?_, rfl, rfl⟩
  · have h := TP.buildClusters_perm θ (TP.selectUnclustered db links cutoff) []
    simpa using h
  · exact TP.buildClusters_inv θ _ []
      ⟨fun cl h => absurd h (List.not_mem_nil cl), List.Pairwise.nil⟩
